import Mathlib

/-!
# Verification of the Mondrian-style image transformer

A shallow embedding of `to_Mondrian_style.py`.  Pixels are integer RGB
triples; images are a width, a height and a row-major list of rows;
the Python `random.Random` source is modelled as an abstract stream of
natural numbers consumed one value per `randint` call, with the value
reduced into the requested interval.  Fallible Python operations
(out-of-bounds pixel access, division by zero, `randint` on an empty
interval) are modelled with `Option`.
-/

/-- A pixel: an RGB triple of integers. -/
abbrev Pix := ℤ × ℤ × ℤ

/-- Pixel buffer: `width`, `height`, and rows of pixels (row `y`, column `x`). -/
structure Img where
  width : ℤ
  height : ℤ
  rows : List (List Pix)
deriving DecidableEq

/-- `Image.getpixel((x, y))`: in-bounds read, failure (`IndexError`) otherwise. -/
def getpixel (img : Img) (x y : ℤ) : Option Pix :=
  if 0 ≤ x ∧ x < img.width ∧ 0 ≤ y ∧ y < img.height then
    some ((img.rows.getD y.toNat []).getD x.toNat (0, 0, 0))
  else none

/-- `Image.putpixel((x, y), c)`: in-bounds write, failure otherwise. -/
def putpixel (img : Img) (x y : ℤ) (c : Pix) : Option Img :=
  if 0 ≤ x ∧ x < img.width ∧ 0 ≤ y ∧ y < img.height then
    some { img with rows := img.rows.set y.toNat ((img.rows.getD y.toNat []).set x.toNat c) }
  else none

/-- The random source: an abstract stream of draws and a position in it. -/
structure Rng where
  stream : ℕ → ℕ
  pos : ℕ

/-- `rng.randint(lo, hi)`: consumes one draw and returns a value in `[lo, hi]`;
`ValueError` when the interval is empty.  Any in-range value is realizable by a
suitable stream, matching the set of behaviours of a seeded `random.Random`. -/
def randint (rng : Rng) (lo hi : ℤ) : Option (ℤ × Rng) :=
  if lo ≤ hi then
    some (lo + (rng.stream rng.pos : ℤ) % (hi - lo + 1), ⟨rng.stream, rng.pos + 1⟩)
  else none

/-- `Box`, identified by its corner coordinates (fields in source order). -/
structure Box where
  Top : ℤ
  Bottom : ℤ
  Left : ℤ
  Right : ℤ
deriving DecidableEq

/-- `maxSample = 100`: maximum points sampled in a box. -/
def maxSample : ℕ := 100

/-- `sampler`: number of points to sample in a box,
`min(abs(Left - Right + 1) * abs(Top - Bottom + 1), maxSample)`. -/
def sampler (box : Box) : ℕ :=
  min ((box.Left - box.Right + 1).natAbs * (box.Top - box.Bottom + 1).natAbs) maxSample

/-- The sampling loop of `average`: draw `n` points `(x, y)` with
`x = randint(minx, maxx)`, `y = randint(miny, maxy)` and read each pixel. -/
def drawSamples (img : Img) (minx maxx miny maxy : ℤ) : ℕ → Rng → Option (List Pix × Rng)
  | 0, rng => some ([], rng)
  | n + 1, rng => do
    let (x, r1) ← randint rng minx maxx
    let (y, r2) ← randint r1 miny maxy
    let p ← getpixel img x y
    let (rest, r3) ← drawSamples img minx maxx miny maxy n r2
    some (p :: rest, r3)

/-- `average`: the mean color of a box estimated from random samples; fails
(`ZeroDivisionError`) when the sample list is empty. -/
def average (img : Img) (rng : Rng) (box : Box) : Option ((ℚ × ℚ × ℚ) × Rng) := do
  let (sample, r1) ← drawSamples img (min box.Left box.Right) (max box.Left box.Right)
      (min box.Top box.Bottom) (max box.Top box.Bottom) (sampler box) rng
  if sample.length = 0 then none
  else
    some (((sample.map (fun p => (p.1 : ℚ))).sum / sample.length,
           (sample.map (fun p => (p.2.1 : ℚ))).sum / sample.length,
           (sample.map (fun p => (p.2.2 : ℚ))).sum / sample.length), r1)

/-- `distance`: squared Euclidean distance between two colors. -/
def distance (c1 c2 : ℚ × ℚ × ℚ) : ℚ :=
  (c1.1 - c2.1) ^ 2 + (c1.2.1 - c2.2.1) ^ 2 + (c1.2.2 - c2.2.2) ^ 2

/-- The vertical-cut loop of `split`: each cut `c` drawn from
`[minx + margin, maxx + 1 - margin]` yields `(Right := c, Left := c + 1)`. -/
def vertCuts (box : Box) (minx maxx margin : ℤ) : ℕ → Rng → Option (List (Box × Box) × Rng)
  | 0, rng => some ([], rng)
  | n + 1, rng => do
    let (cut, r1) ← randint rng (minx + margin) (maxx + 1 - margin)
    let (rest, r2) ← vertCuts box minx maxx margin n r1
    some (({ box with Right := cut }, { box with Left := cut + 1 }) :: rest, r2)

/-- The horizontal-cut loop of `split`: each cut `c` drawn from
`[miny + margin, maxy + 1 - margin]` yields `(Top := c, Bottom := c + 1)`. -/
def horizCuts (box : Box) (miny maxy margin : ℤ) : ℕ → Rng → Option (List (Box × Box) × Rng)
  | 0, rng => some ([], rng)
  | n + 1, rng => do
    let (cut, r1) ← randint rng (miny + margin) (maxy + 1 - margin)
    let (rest, r2) ← horizCuts box miny maxy margin n r1
    some (({ box with Top := cut }, { box with Bottom := cut + 1 }) :: rest, r2)

/-- The key evaluations performed by `max(attempts, key=...)`, in list order:
score each candidate pair by the distance of the two halves' averages. -/
def scoreAll (img : Img) : List (Box × Box) → Rng → Option (List ((Box × Box) × ℚ) × Rng)
  | [], rng => some ([], rng)
  | p :: rest, rng => do
    let (c1, r1) ← average img rng p.1
    let (c2, r2) ← average img r1 p.2
    let (others, r3) ← scoreAll img rest r2
    some ((p, distance c1 c2) :: others, r3)

/-- Python `max` with a key: keeps the first element of maximal key. -/
def maxByFirst : ((Box × Box) × ℚ) → List ((Box × Box) × ℚ) → ((Box × Box) × ℚ)
  | acc, [] => acc
  | acc, x :: xs => maxByFirst (if acc.2 < x.2 then x else acc) xs

/-- The final step of `split`: `max(attempts, key=...)` when the attempt list
is nonempty (scoring every candidate in order, consuming randomness), `None`
otherwise. -/
def chooseBest (img : Img) (attempts : List (Box × Box)) (rng : Rng) :
    Option (Option (Box × Box) × Rng) :=
  match attempts with
  | [] => some (none, rng)
  | a :: rest => do
    let (scored, r3) ← scoreAll img (a :: rest) rng
    match scored with
    | [] => some (none, r3)
    | s :: ss => some (some (maxByFirst s ss).1, r3)

/-- `split`: attempt `cuts` random vertical and horizontal cuts (each axis only
when `min + margin < max - margin`) and return the candidate pair with the
largest color distance; `none` (inner) when no cut was attempted. -/
def split (img : Img) (rng : Rng) (cuts margin : ℤ) (box : Box) :
    Option (Option (Box × Box) × Rng) := do
  let minx := min box.Left box.Right
  let maxx := max box.Left box.Right
  let (vatt, r1) ←
    if minx + margin < maxx - margin then vertCuts box minx maxx margin cuts.toNat rng
    else some ([], rng)
  let miny := min box.Top box.Bottom
  let maxy := max box.Top box.Bottom
  let (hatt, r2) ←
    if miny + margin < maxy - margin then horizCuts box miny maxy margin cuts.toNat r1
    else some ([], r1)
  chooseBest img (vatt ++ hatt) r2

/-- The rebuilding loop of `spawn`: box `bi` is replaced by its split (kept
when the splitter returns no split), all other boxes are kept. -/
def spawnGo (img : Img) (cuts margin : ℤ) (bi : ℤ) : List Box → ℕ → Rng → Option (List Box × Rng)
  | [], _, rng => some ([], rng)
  | b :: bs, i, rng =>
    if (i : ℤ) = bi then do
      let (res, r1) ← split img rng cuts margin b
      let (rest, r2) ← spawnGo img cuts margin bi bs (i + 1) r1
      match res with
      | none => some (b :: rest, r2)
      | some (b1, b2) => some (b1 :: b2 :: rest, r2)
    else do
      let (rest, r1) ← spawnGo img cuts margin bi bs (i + 1) rng
      some (b :: rest, r1)

/-- `spawn`: pick a random box index and split that box. -/
def spawn (img : Img) (rng : Rng) (cuts margin : ℤ) (boxes : List Box) :
    Option (List Box × Rng) := do
  let (bi, r1) ← randint rng 0 (boxes.length - 1)
  spawnGo img cuts margin bi boxes 0 r1

/-- The recursion of `boxize.fragment`: run `spawn` once per remaining generation. -/
def fragment (img : Img) (cuts margin : ℤ) : ℕ → List Box → Rng → Option (List Box × Rng)
  | 0, boxes, rng => some (boxes, rng)
  | n + 1, boxes, rng => do
    let (more, r1) ← spawn img rng cuts margin boxes
    fragment img cuts margin n more r1

/-- The initial box of `boxize`: `Box(Left=0, Right=width-1, Top=height-1, Bottom=0)`. -/
def canvasBox (img : Img) : Box := ⟨img.height - 1, 0, 0, img.width - 1⟩

/-- `boxize`: starting from the canvas box, run `depth` generations (none when
`depth ≤ 0`, since `fragment` returns as soon as `gen >= depth`). -/
def boxize (img : Img) (rng : Rng) (cuts margin depth : ℤ) : Option (List Box × Rng) :=
  fragment img cuts margin depth.toNat [canvasBox img] rng

/-- `whiteness`: `min(r, g, b)` (defined in the source but never called). -/
def whiteness (c : ℚ × ℚ × ℚ) : ℚ := min c.1 (min c.2.1 c.2.2)

/-- Python `round`: round half to even, on exact rational values. -/
def pyRound (q : ℚ) : ℤ :=
  let f := q.floor
  let r := q - f
  if r < 1 / 2 then f
  else if 1 / 2 < r then f + 1
  else if f % 2 = 0 then f else f + 1

/-- Python `int()` on a number: truncation toward zero. -/
def intTrunc (q : ℚ) : ℤ := if q < 0 then -(-q).floor else q.floor

/-- `roundize`: `int(grain * round(value / grain))`, capped above at 255;
fails (`ZeroDivisionError`) when the grain is zero. -/
def roundize (value grain : ℚ) : Option ℤ :=
  if grain = 0 then none
  else
    let v := intTrunc (grain * (pyRound (value / grain) : ℚ))
    some (if v > 255 then 255 else v)

/-- `contrastize`: quantize each channel with `roundize`. -/
def contrastize (grain : ℚ) (c : ℚ × ℚ × ℚ) : Option Pix := do
  let r ← roundize c.1 grain
  let g ← roundize c.2.1 grain
  let b ← roundize c.2.2 grain
  some (r, g, b)

/-- The first loop of `colorize`: pair box `i` with pure white when
`i < whitened` and with its quantized average color otherwise. -/
def buildColors (img : Img) (grain : ℚ) (whitened : ℤ) :
    List Box → ℕ → Rng → Option (List (Box × Pix) × Rng)
  | [], _, rng => some ([], rng)
  | b :: bs, i, rng => do
    let (avg, r1) ← average img rng b
    let c ← if (i : ℤ) < whitened then some ((255, 255, 255) : Pix) else contrastize grain avg
    let (rest, r2) ← buildColors img grain whitened bs (i + 1) r1
    some ((b, c) :: rest, r2)

/-- The inner paint loop of `colorize`: one column of a box. -/
def paintColumn (x : ℤ) (c : Pix) : List ℤ → Img → Option Img
  | [], img => some img
  | y :: ys, img => do
    let _ ← getpixel img x y
    let img1 ← putpixel img x y c
    paintColumn x c ys img1

/-- `range(a, b + 1)` as a list of integers. -/
def intRange (a b : ℤ) : List ℤ :=
  (List.range (b + 1 - a).toNat).map (fun i : ℕ => a + (i : ℤ))

/-- The outer paint loop of `colorize`: the columns of a box. -/
def paintCols (box : Box) (c : Pix) : List ℤ → Img → Option Img
  | [], img => some img
  | x :: xs, img => do
    let img1 ← paintColumn x c (intRange box.Bottom box.Top) img
    paintCols box c xs img1

/-- The second loop of `colorize`: paint every pixel of every box. -/
def paintAll : List (Box × Pix) → Img → Option Img
  | [], img => some img
  | (box, c) :: rest, img => do
    let img1 ← paintCols box c (intRange box.Left box.Right) img
    paintAll rest img1

/-- `colorize`: compute `whitened = int(white * len(boxes))`, build all colors
(first `whitened` boxes pure white), then paint every box. -/
def colorize (img : Img) (rng : Rng) (white grain : ℚ) (boxes : List Box) :
    Option (Img × Rng) := do
  let whitened := intTrunc (white * (boxes.length : ℚ))
  let (colors, r1) ← buildColors img grain whitened boxes 0 rng
  let img1 ← paintAll colors img
  some (img1, r1)

/-- The bottom-side coordinates yielded by `borderize.borders`:
present only when `box.Bottom > 0`. -/
def bottomSide (margin : ℤ) (box : Box) : List (ℤ × ℤ) :=
  if box.Bottom > 0 then
    (intRange box.Left box.Right).flatMap
      (fun x => (intRange 0 margin).map (fun m => (x, box.Bottom + m)))
  else []

/-- The top-side coordinates yielded by `borderize.borders`:
present only when `box.Top < height - 1`. -/
def topSide (h margin : ℤ) (box : Box) : List (ℤ × ℤ) :=
  if box.Top < h - 1 then
    (intRange box.Left box.Right).flatMap
      (fun x => (intRange 0 margin).map (fun m => (x, box.Top - m)))
  else []

/-- The left-side coordinates yielded by `borderize.borders`:
present only when `box.Left > 0`. -/
def leftSide (margin : ℤ) (box : Box) : List (ℤ × ℤ) :=
  if box.Left > 0 then
    (intRange box.Bottom box.Top).flatMap
      (fun y => (intRange 0 margin).map (fun m => (box.Left + m, y)))
  else []

/-- The right-side coordinates yielded by `borderize.borders`:
present only when `box.Right < width - 1`. -/
def rightSide (w margin : ℤ) (box : Box) : List (ℤ × ℤ) :=
  if box.Right < w - 1 then
    (intRange box.Bottom box.Top).flatMap
      (fun y => (intRange 0 margin).map (fun m => (box.Right - m, y)))
  else []

/-- `borderize.borders`: all coordinates yielded for one box.  The whole body
of the generator sits under `if margin > 0`, so a zero margin yields nothing. -/
def bordersList (w h margin : ℤ) (box : Box) : List (ℤ × ℤ) :=
  if margin > 0 then
    bottomSide margin box ++ topSide h margin box ++ leftSide margin box ++ rightSide w margin box
  else []

/-- Paint black at each coordinate of a list, in order. -/
def bordersFold : List (ℤ × ℤ) → Img → Option Img
  | [], img => some img
  | (x, y) :: rest, img => do
    let img1 ← putpixel img x y (0, 0, 0)
    bordersFold rest img1

/-- The box loop of `borderize`. -/
def borderizeGo (w h margin : ℤ) : List Box → Img → Option Img
  | [], img => some img
  | b :: bs, img => do
    let img1 ← bordersFold (bordersList w h margin b) img
    borderizeGo w h margin bs img1

/-- `borderize`: paint the black borders of every box. -/
def borderize (img : Img) (margin : ℤ) (boxes : List Box) : Option Img :=
  borderizeGo img.width img.height margin boxes img

/-- The core pipeline of `main`: `boxize`, then `colorize`, then `borderize`. -/
def mondrianize (img : Img) (rng : Rng) (cuts edges depth : ℤ) (white contrast : ℚ)
    (margin : ℤ) : Option Img := do
  let (boxes, r1) ← boxize img rng cuts edges depth
  let (img1, _) ← colorize img r1 white contrast boxes
  borderize img1 margin boxes

/-! ## Specification predicates -/

/-- Pixel `(x, y)` lies in the (inclusive) box. -/
def inBox (b : Box) (x y : ℤ) : Prop :=
  b.Left ≤ x ∧ x ≤ b.Right ∧ b.Bottom ≤ y ∧ y ≤ b.Top

instance (b : Box) (x y : ℤ) : Decidable (inBox b x y) := by
  unfold inBox; infer_instance

/-- The box's bounds are in the normalized order used by the pipeline. -/
def normalBox (b : Box) : Prop := b.Left ≤ b.Right ∧ b.Bottom ≤ b.Top

instance (b : Box) : Decidable (normalBox b) := by
  unfold normalBox; infer_instance

/-- The box's bounds lie within `[0, w-1] × [0, h-1]`. -/
def boxInCanvas (w h : ℤ) (b : Box) : Prop :=
  0 ≤ b.Left ∧ b.Right < w ∧ 0 ≤ b.Bottom ∧ b.Top < h

instance (w h : ℤ) (b : Box) : Decidable (boxInCanvas w h b) := by
  unfold boxInCanvas; infer_instance

/-- A box acceptable as a partition member: normalized and within the canvas. -/
def goodBox (w h : ℤ) (b : Box) : Prop := normalBox b ∧ boxInCanvas w h b

/-- How many boxes of the list contain pixel `(x, y)`. -/
def coverCount (bs : List Box) (x y : ℤ) : ℕ :=
  bs.countP (fun b => decide (inBox b x y))

/-- The boxes are a valid partition of the `w × h` canvas: each box is
normalized and within bounds, and every canvas pixel is covered exactly once
(union is the whole canvas, interiors pairwise disjoint). -/
def validPartition (w h : ℤ) (bs : List Box) : Prop :=
  (∀ b ∈ bs, goodBox w h b) ∧
  ∀ x y : ℤ, 0 ≤ x → x < w → 0 ≤ y → y < h → coverCount bs x y = 1

/-- `b1` and `b2` exactly partition `b`: their union is `b` and they are disjoint. -/
def exactSplit (b b1 b2 : Box) : Prop :=
  (∀ x y : ℤ, inBox b x y ↔ (inBox b1 x y ∨ inBox b2 x y)) ∧
  ∀ x y : ℤ, ¬(inBox b1 x y ∧ inBox b2 x y)

/-- `inner`'s bounds lie within `outer`'s. -/
def subOf (inner outer : Box) : Prop :=
  outer.Left ≤ inner.Left ∧ inner.Right ≤ outer.Right ∧
  outer.Bottom ≤ inner.Bottom ∧ inner.Top ≤ outer.Top

/-- A candidate pair that exactly splits `b` into two normalized sub-boxes. -/
def splitPair (b : Box) (pr : Box × Box) : Prop :=
  exactSplit b pr.1 pr.2 ∧ normalBox pr.1 ∧ normalBox pr.2 ∧ subOf pr.1 b ∧ subOf pr.2 b

/-! ## Concrete fixtures -/

/-- A 1×1 image with the single pixel `(10, 10, 10)`. -/
def img1x1 : Img := ⟨1, 1, [[(10, 10, 10)]]⟩

/-- A 3×1 image of black pixels. -/
def img3x1 : Img := ⟨3, 1, [[(0, 0, 0), (0, 0, 0), (0, 0, 0)]]⟩

/-- A 2×1 image of black pixels. -/
def img2x1 : Img := ⟨2, 1, [[(0, 0, 0), (0, 0, 0)]]⟩

/-- A 7×1 image of black pixels. -/
def img7x1 : Img := ⟨7, 1, [List.replicate 7 (0, 0, 0)]⟩

/-- A 4×4 image of grey pixels. -/
def img4x4 : Img := ⟨4, 4, List.replicate 4 (List.replicate 4 (7, 7, 7))⟩

/-- A 10×10 image of grey pixels. -/
def img10x10 : Img := ⟨10, 10, List.replicate 10 (List.replicate 10 (5, 5, 5))⟩

/-- The all-zero random stream. -/
def rngZero : Rng := ⟨fun _ => 0, 0⟩

/-- A stream whose second draw is 3 and all others 0 (drives `boxize` on
`img3x1` with `margin = 0` into choosing the overflowing cut `c = 3`). -/
def rngCut1 : Rng := ⟨fun n => if n = 1 then 3 else 0, 0⟩

/-- A stream whose first draw is 3 and all others 0 (drives `split` on the
canvas box of `img3x1` with `margin = 0` into the overflowing cut `c = 3`). -/
def rngCut0 : Rng := ⟨fun n => if n = 0 then 3 else 0, 0⟩

/-! ## Basic lemmas -/

theorem randint_bounds {rng r' : Rng} {lo hi v : ℤ}
    (h : randint rng lo hi = some (v, r')) : lo ≤ v ∧ v ≤ hi := by
  unfold randint at h
  by_cases hle : lo ≤ hi
  · rw [if_pos hle] at h
    have hpos : 0 < hi - lo + 1 := by omega
    have h1 : 0 ≤ ((rng.stream rng.pos : ℤ)) % (hi - lo + 1) :=
      Int.emod_nonneg _ (by omega)
    have h2 : ((rng.stream rng.pos : ℤ)) % (hi - lo + 1) < hi - lo + 1 :=
      Int.emod_lt_of_pos _ hpos
    have hv : v = lo + ((rng.stream rng.pos : ℤ)) % (hi - lo + 1) := by
      have := (Option.some.injEq _ _).mp h
      exact (congrArg Prod.fst this.symm)
    omega
  · rw [if_neg hle] at h
    exact absurd h (by simp)

theorem randint_eq_some {rng : Rng} {lo hi : ℤ} (hle : lo ≤ hi) :
    randint rng lo hi =
      some (lo + (rng.stream rng.pos : ℤ) % (hi - lo + 1), ⟨rng.stream, rng.pos + 1⟩) := by
  unfold randint
  rw [if_pos hle]

/-! ## Claims about the sampler (C3, C10) -/

/-- C10: for every pixel buffer, RNG and box whose x-extent is exactly 2
(`Right = Left + 1`), the sample-count helper `sampler` returns 0 — its width
term `abs(Left - Right + 1)` is the true width minus 2 whenever `Left < Right`
— so `average` draws no samples and fails with a division-by-zero error
instead of returning a color. -/
theorem average_width_two_division_by_zero (img : Img) (rng : Rng) (box : Box)
    (h : box.Right = box.Left + 1) :
    sampler box = 0 ∧ average img rng box = none ∧
    ∀ b : Box, b.Left < b.Right →
      ((b.Left - b.Right + 1).natAbs : ℤ) = (b.Right - b.Left + 1) - 2 := by
  have hz : box.Left - box.Right + 1 = 0 := by omega
  have hs : sampler box = 0 := by
    unfold sampler
    rw [hz]
    simp
  refine ⟨hs, ?_, ?_⟩
  · unfold average
    rw [hs]
    simp [drawSamples]
  · intro b hb
    omega

/-- Witness for `average_width_two_division_by_zero` at a concrete 2×4 box. -/
theorem average_width_two_division_by_zero_witness :
    sampler ⟨3, 0, 0, 1⟩ = 0 ∧ average img4x4 rngZero ⟨3, 0, 0, 1⟩ = none ∧
    ∀ b : Box, b.Left < b.Right →
      ((b.Left - b.Right + 1).natAbs : ℤ) = (b.Right - b.Left + 1) - 2 :=
  average_width_two_division_by_zero img4x4 rngZero ⟨3, 0, 0, 1⟩ (by decide)

/-- C3 (code bug): the specification says the color estimator draws
`n = min(area, sampleCap)` samples; on the 2×1 region
`Box(Top=0, Bottom=0, Left=0, Right=1)` the claimed count is `min(2, 100) = 2`,
but the code computes a sample count of 0 (its width term
`abs(Left - Right + 1)` collapses to 0) and `average` fails with a
division-by-zero error instead of returning the mean. -/
theorem sampler_contradicts_area_bound :
    sampler ⟨0, 0, 0, 1⟩ = 0 ∧ min 2 100 = 2 ∧
    average img2x1 rngZero ⟨0, 0, 0, 1⟩ = none := by
  refine ⟨rfl, rfl, ?_⟩
  with_unfolding_all rfl

/-! ## Claim C6: determinism -/

/-- C6: the pipeline is deterministic — two full runs (partition building,
recoloring, border rendering) on identical buffers with identical
configuration and identically-seeded random sources produce bit-identical
outputs, and in particular the same generations count and RNG stream yield
the same final partition. -/
theorem mondrianize_deterministic (imgA imgB : Img) (rngA rngB : Rng)
    (cutsA cutsB edgesA edgesB depthA depthB marginA marginB : ℤ)
    (whiteA whiteB contrastA contrastB : ℚ)
    (h1 : imgA = imgB) (h2 : rngA = rngB) (h3 : cutsA = cutsB) (h4 : edgesA = edgesB)
    (h5 : depthA = depthB) (h6 : whiteA = whiteB) (h7 : contrastA = contrastB)
    (h8 : marginA = marginB) :
    mondrianize imgA rngA cutsA edgesA depthA whiteA contrastA marginA =
      mondrianize imgB rngB cutsB edgesB depthB whiteB contrastB marginB ∧
    boxize imgA rngA cutsA edgesA depthA = boxize imgB rngB cutsB edgesB depthB := by
  subst h1 h2 h3 h4 h5 h6 h7 h8
  exact ⟨rfl, rfl⟩

/-- Witness for `mondrianize_deterministic` at a concrete configuration. -/
theorem mondrianize_deterministic_witness :
    mondrianize img1x1 rngZero 100 2 1 0 32 0 = mondrianize img1x1 rngZero 100 2 1 0 32 0 ∧
    boxize img1x1 rngZero 100 2 1 = boxize img1x1 rngZero 100 2 1 :=
  mondrianize_deterministic img1x1 img1x1 rngZero rngZero 100 100 2 2 1 1 0 0 0 0 32 32
    rfl rfl rfl rfl rfl rfl rfl rfl

/-! ## Claim C5: degenerate configuration -/

/-- C5 counterexample: with the degenerate configuration `generations = 0` the
pipeline does not fail fast with an invalid-configuration error; it runs to
completion on a 1×1 buffer and mutates its pixel (from `(10,10,10)` to the
quantized `(0,0,0)`), i.e. it silently accepts the invalid input. -/
theorem pipeline_no_failfast_on_zero_depth :
    mondrianize img1x1 rngZero 100 0 0 0 32 0 = some ⟨1, 1, [[(0, 0, 0)]]⟩ ∧
    (⟨1, 1, [[(0, 0, 0)]]⟩ : Img) ≠ img1x1 := by
  constructor
  · with_unfolding_all rfl
  · decide

/-- C5 (amended): the core performs no configuration validation at all:
`generations ≤ 0` silently yields the initial single-box partition (no error)
and the pipeline then proceeds to mutate the buffer, and `attemptsPerAxis ≤ 0`
silently makes every split attempt return "no split" instead of erroring. -/
theorem degenerate_config_silent_noop (img : Img) (rng : Rng)
    (cuts margin depth : ℤ) (box : Box) (hd : depth ≤ 0) (hc : cuts ≤ 0) :
    boxize img rng cuts margin depth = some ([canvasBox img], rng) ∧
    split img rng cuts margin box = some (none, rng) := by
  constructor
  · have h0 : depth.toNat = 0 := by omega
    unfold boxize
    rw [h0]
    rfl
  · have h0 : cuts.toNat = 0 := by omega
    unfold split
    rw [h0]
    simp [vertCuts, horizCuts, chooseBest]

/-- Witness for `degenerate_config_silent_noop` at a concrete configuration. -/
theorem degenerate_config_silent_noop_witness :
    boxize img1x1 rngZero 0 0 (-1) = some ([canvasBox img1x1], rngZero) ∧
    split img1x1 rngZero 0 0 (canvasBox img1x1) = some (none, rngZero) :=
  degenerate_config_silent_noop img1x1 rngZero 0 0 (-1) (canvasBox img1x1)
    (by decide) (by decide)

/-! ## Border lemmas -/

theorem mem_intRange {x a b : ℤ} : x ∈ intRange a b ↔ a ≤ x ∧ x ≤ b := by
  unfold intRange
  rw [List.mem_map]
  constructor
  · rintro ⟨i, hi, rfl⟩
    rw [List.mem_range] at hi
    have h2 : (i : ℤ) < b + 1 - a := Int.lt_toNat.mp hi
    constructor <;> omega
  · rintro ⟨h1, h2⟩
    refine ⟨(x - a).toNat, ?_, ?_⟩
    · rw [List.mem_range]
      exact (Int.toNat_lt_toNat (by omega)).mpr (by omega)
    · have h3 : ((x - a).toNat : ℤ) = x - a := Int.toNat_of_nonneg (by omega)
      omega

theorem mem_bottomSide {margin : ℤ} {box : Box} {x y : ℤ} :
    (x, y) ∈ bottomSide margin box ↔
      0 < box.Bottom ∧ box.Left ≤ x ∧ x ≤ box.Right ∧
        box.Bottom ≤ y ∧ y ≤ box.Bottom + margin := by
  unfold bottomSide
  by_cases h : box.Bottom > 0
  · rw [if_pos h]
    simp only [List.mem_flatMap, List.mem_map, mem_intRange, Prod.mk.injEq]
    constructor
    · rintro ⟨a, ha, m, hm, rfl, rfl⟩
      omega
    · rintro ⟨-, h1, h2, h3, h4⟩
      exact ⟨x, ⟨h1, h2⟩, y - box.Bottom, by omega, rfl, by omega⟩
  · rw [if_neg h]
    simp only [List.not_mem_nil, false_iff]
    omega

theorem mem_topSide {h margin : ℤ} {box : Box} {x y : ℤ} :
    (x, y) ∈ topSide h margin box ↔
      box.Top < h - 1 ∧ box.Left ≤ x ∧ x ≤ box.Right ∧
        box.Top - margin ≤ y ∧ y ≤ box.Top := by
  unfold topSide
  by_cases hc : box.Top < h - 1
  · rw [if_pos hc]
    simp only [List.mem_flatMap, List.mem_map, mem_intRange, Prod.mk.injEq]
    constructor
    · rintro ⟨a, ha, m, hm, rfl, rfl⟩
      omega
    · rintro ⟨-, h1, h2, h3, h4⟩
      exact ⟨x, ⟨h1, h2⟩, box.Top - y, by omega, rfl, by omega⟩
  · rw [if_neg hc]
    simp only [List.not_mem_nil, false_iff]
    omega

theorem mem_leftSide {margin : ℤ} {box : Box} {x y : ℤ} :
    (x, y) ∈ leftSide margin box ↔
      0 < box.Left ∧ box.Bottom ≤ y ∧ y ≤ box.Top ∧
        box.Left ≤ x ∧ x ≤ box.Left + margin := by
  unfold leftSide
  by_cases h : box.Left > 0
  · rw [if_pos h]
    simp only [List.mem_flatMap, List.mem_map, mem_intRange, Prod.mk.injEq]
    constructor
    · rintro ⟨a, ha, m, hm, rfl, rfl⟩
      omega
    · rintro ⟨-, h1, h2, h3, h4⟩
      exact ⟨y, ⟨h1, h2⟩, x - box.Left, by omega, by omega, rfl⟩
  · rw [if_neg h]
    simp only [List.not_mem_nil, false_iff]
    omega

theorem mem_rightSide {w margin : ℤ} {box : Box} {x y : ℤ} :
    (x, y) ∈ rightSide w margin box ↔
      box.Right < w - 1 ∧ box.Bottom ≤ y ∧ y ≤ box.Top ∧
        box.Right - margin ≤ x ∧ x ≤ box.Right := by
  unfold rightSide
  by_cases h : box.Right < w - 1
  · rw [if_pos h]
    simp only [List.mem_flatMap, List.mem_map, mem_intRange, Prod.mk.injEq]
    constructor
    · rintro ⟨a, ha, m, hm, rfl, rfl⟩
      omega
    · rintro ⟨-, h1, h2, h3, h4⟩
      exact ⟨y, ⟨h1, h2⟩, box.Right - x, by omega, by omega, rfl⟩
  · rw [if_neg h]
    simp only [List.not_mem_nil, false_iff]
    omega

theorem borderizeGo_zero_margin (w h : ℤ) (boxes : List Box) (img : Img) :
    borderizeGo w h 0 boxes img = some img := by
  induction boxes generalizing img with
  | nil => rfl
  | cons b bs ih =>
    show (do
      let img1 ← bordersFold (bordersList w h 0 b) img
      borderizeGo w h 0 bs img1) = some img
    have hb : bordersList w h 0 b = [] := by
      unfold bordersList
      rw [if_neg (by omega)]
    rw [hb]
    show borderizeGo w h 0 bs img = some img
    exact ih img

/-! ## Claims C4 and C9: border rendering -/

/-- C4 counterexample: with `marginWidth = 0` the border renderer paints
nothing at all.  On a 4×4 canvas split into two abutting 2×4 regions, the left
region's right side at `x = 1` is internal (`Right = 1 < width - 1`), so the
claim requires a one-pixel black line there; instead `borderize` returns the
buffer unchanged and the edge pixel `(1, 0)` keeps its original color. -/
theorem borderize_zero_margin_paints_nothing :
    borderize img4x4 0 [⟨3, 0, 0, 1⟩, ⟨3, 0, 2, 3⟩] = some img4x4 ∧
    getpixel img4x4 1 0 ≠ some ((0, 0, 0) : Pix) := by
  constructor
  · with_unfolding_all rfl
  · with_unfolding_all decide

/-- C4 (amended): the whole border generator is guarded by `margin > 0`, so
`marginWidth = 0` paints nothing (the renderer is the identity); for
`marginWidth ≥ 1` it paints `marginWidth + 1` pixel-rows/columns inward from
each internal (non-canvas-boundary) side of each region, as characterized by
this membership description of the painted coordinates. -/
theorem bordersList_mem_iff (w h margin : ℤ) (box : Box) (x y : ℤ) :
    ((x, y) ∈ bordersList w h margin box ↔
      0 < margin ∧
        ((0 < box.Bottom ∧ box.Left ≤ x ∧ x ≤ box.Right ∧
            box.Bottom ≤ y ∧ y ≤ box.Bottom + margin) ∨
         (box.Top < h - 1 ∧ box.Left ≤ x ∧ x ≤ box.Right ∧
            box.Top - margin ≤ y ∧ y ≤ box.Top) ∨
         (0 < box.Left ∧ box.Bottom ≤ y ∧ y ≤ box.Top ∧
            box.Left ≤ x ∧ x ≤ box.Left + margin) ∨
         (box.Right < w - 1 ∧ box.Bottom ≤ y ∧ y ≤ box.Top ∧
            box.Right - margin ≤ x ∧ x ≤ box.Right))) ∧
    ∀ (img : Img) (boxes : List Box), borderize img 0 boxes = some img := by
  constructor
  · unfold bordersList
    by_cases hm : margin > 0
    · rw [if_pos hm]
      simp only [List.mem_append, mem_bottomSide, mem_topSide, mem_leftSide, mem_rightSide,
        or_assoc]
      exact ⟨fun hyp => ⟨hm, hyp⟩, fun hyp => hyp.2⟩
    · rw [if_neg hm]
      simp only [List.not_mem_nil, false_iff]
      omega
  · intro img boxes
    exact borderizeGo_zero_margin img.width img.height boxes img

/-- C9: a region side lying on the outer canvas boundary is never painted as a
border: each of the four side generators yields nothing when its side touches
`y = 0`, `y = h - 1`, `x = 0` or `x = w - 1` respectively; consequently, for a
single region covering the whole canvas the border renderer paints zero
pixels and returns the buffer unchanged. -/
theorem borders_skip_canvas_boundary (w h margin : ℤ) (box : Box) :
    (box.Bottom ≤ 0 → bottomSide margin box = []) ∧
    (h - 1 ≤ box.Top → topSide h margin box = []) ∧
    (box.Left ≤ 0 → leftSide margin box = []) ∧
    (w - 1 ≤ box.Right → rightSide w margin box = []) ∧
    (∀ img : Img, img.width = w → img.height = h →
      box.Bottom ≤ 0 → h - 1 ≤ box.Top → box.Left ≤ 0 → w - 1 ≤ box.Right →
      borderize img margin [box] = some img) := by
  refine ⟨?_, ?_, ?_, ?_, ?_⟩
  · intro hb
    unfold bottomSide
    rw [if_neg (by omega)]
  · intro ht
    unfold topSide
    rw [if_neg (by omega)]
  · intro hl
    unfold leftSide
    rw [if_neg (by omega)]
  · intro hr
    unfold rightSide
    rw [if_neg (by omega)]
  · intro img hw hh hb ht hl hr
    subst hw hh
    have hlist : bordersList img.width img.height margin box = [] := by
      unfold bordersList
      by_cases hm : margin > 0
      · rw [if_pos hm]
        rw [show bottomSide margin box = [] from by unfold bottomSide; rw [if_neg (by omega)],
            show topSide img.height margin box = [] from by unfold topSide; rw [if_neg (by omega)],
            show leftSide margin box = [] from by unfold leftSide; rw [if_neg (by omega)],
            show rightSide img.width margin box = [] from by
              unfold rightSide; rw [if_neg (by omega)]]
        rfl
      · rw [if_neg hm]
    unfold borderize
    show (do
      let img1 ← bordersFold (bordersList img.width img.height margin box) img
      borderizeGo img.width img.height margin [] img1) = some img
    rw [hlist]
    rfl

/-- Witness for `borders_skip_canvas_boundary`: a 10×10 canvas covered by a
single region has all four sides suppressed and `borderize` paints nothing. -/
theorem borders_skip_canvas_boundary_witness :
    bottomSide 3 ⟨9, 0, 0, 9⟩ = [] ∧ topSide 10 3 ⟨9, 0, 0, 9⟩ = [] ∧
    leftSide 3 ⟨9, 0, 0, 9⟩ = [] ∧ rightSide 10 3 ⟨9, 0, 0, 9⟩ = [] ∧
    borderize img10x10 3 [⟨9, 0, 0, 9⟩] = some img10x10 :=
  ⟨(borders_skip_canvas_boundary 10 10 3 ⟨9, 0, 0, 9⟩).1 (by decide),
   (borders_skip_canvas_boundary 10 10 3 ⟨9, 0, 0, 9⟩).2.1 (by decide),
   (borders_skip_canvas_boundary 10 10 3 ⟨9, 0, 0, 9⟩).2.2.1 (by decide),
   (borders_skip_canvas_boundary 10 10 3 ⟨9, 0, 0, 9⟩).2.2.2.1 (by decide),
   (borders_skip_canvas_boundary 10 10 3 ⟨9, 0, 0, 9⟩).2.2.2.2 img10x10 rfl rfl
     (by decide) (by decide) (by decide) (by decide)⟩

/-! ## Quantization lemmas (C7) -/

theorem ratFloor_eq_intFloor (q : ℚ) : q.floor = ⌊q⌋ := by
  rw [Rat.floor_def', Rat.floor_def]

theorem intTrunc_intCast (n : ℤ) : intTrunc (n : ℚ) = n := by
  unfold intTrunc
  simp only [ratFloor_eq_intFloor]
  by_cases h : (n : ℚ) < 0
  · rw [if_pos h, ← Int.cast_neg, Int.floor_intCast]
    omega
  · rw [if_neg h, Int.floor_intCast]

theorem pyRound_nonneg {q : ℚ} (h : 0 ≤ q) : 0 ≤ pyRound q := by
  unfold pyRound
  simp only [ratFloor_eq_intFloor]
  have h0 : 0 ≤ ⌊q⌋ := Int.floor_nonneg.mpr h
  split_ifs <;> omega

/-- C7 counterexample: for the non-integer grain `g = 5/2` and channel value
`v = 3` the code truncates `g * round(v/g) = 2.5` with `int()` and returns 2,
while the claimed formula `clamp(round(v/g) * g, 0, 255)` evaluates to `5/2`;
the two disagree. -/
theorem roundize_noninteger_grain_counter :
    roundize 3 (5 / 2 : ℚ) = some 2 ∧
    ((2 : ℤ) : ℚ) ≠ max 0 (min ((pyRound ((3 : ℚ) / (5 / 2 : ℚ)) : ℚ) * (5 / 2 : ℚ)) 255) := by
  constructor
  · with_unfolding_all rfl
  · have hp : pyRound ((3 : ℚ) / (5 / 2 : ℚ)) = 1 := by with_unfolding_all rfl
    rw [hp]
    norm_num

/-- C7 (amended): for every channel value `v ∈ [0, 255]` and every positive
*integer* grain `g`, quantization maps `v` to
`clamp(round(v/g) * g, 0, 255)` (with `round` half-to-even), the nearest
multiple of `g` clamped at 255 on overflow; in particular `130 ↦ 128` and
`250 ↦ 256 ↦ 255` for `g = 32`.  (For non-integer grains the product is
additionally truncated toward zero by `int()`.) -/
theorem roundize_eq_clamp_of_int_grain (v : ℚ) (g : ℤ)
    (hg : 0 < g) (h0 : 0 ≤ v) (h255 : v ≤ 255) :
    roundize v (g : ℚ) = some (max 0 (min (pyRound (v / (g : ℚ)) * g) 255)) := by
  have hgq : ((g : ℚ)) ≠ 0 := Int.cast_ne_zero.mpr (by omega)
  unfold roundize
  rw [if_neg hgq]
  have hcast : (g : ℚ) * ((pyRound (v / (g : ℚ)) : ℤ) : ℚ) =
      ((g * pyRound (v / (g : ℚ)) : ℤ) : ℚ) := by push_cast; ring
  rw [hcast, intTrunc_intCast]
  have hgq0 : (0 : ℚ) ≤ (g : ℚ) := by positivity
  have hk0 : 0 ≤ pyRound (v / (g : ℚ)) := pyRound_nonneg (div_nonneg h0 hgq0)
  have hm : 0 ≤ g * pyRound (v / (g : ℚ)) := mul_nonneg (by omega) hk0
  rw [mul_comm (pyRound (v / (g : ℚ))) g]
  generalize g * pyRound (v / (g : ℚ)) = m at hm ⊢
  dsimp only
  congr 1
  split_ifs with h
  · rw [min_eq_right (by omega), max_eq_right (by omega)]
  · rw [min_eq_left (by omega), max_eq_right hm]

/-- Witness for `roundize_eq_clamp_of_int_grain` at `g = 32`, including the
spec's concrete instances `130 ↦ 128` and `250 ↦ 255`. -/
theorem roundize_clamp_witness :
    roundize 130 ((32 : ℤ) : ℚ) =
      some (max 0 (min (pyRound (130 / ((32 : ℤ) : ℚ)) * 32) 255)) ∧
    roundize 130 ((32 : ℤ) : ℚ) = some 128 ∧ roundize 250 ((32 : ℤ) : ℚ) = some 255 :=
  ⟨roundize_eq_clamp_of_int_grain 130 32 (by norm_num) (by norm_num) (by norm_num),
   by with_unfolding_all rfl, by with_unfolding_all rfl⟩

/-! ## Split-exactness lemmas (C1, C2) -/

theorem vertPair_splitPair {box : Box} {cut margin : ℤ} (hn : normalBox box) (hm : 2 ≤ margin)
    (h1 : box.Left + margin ≤ cut) (h2 : cut ≤ box.Right + 1 - margin) :
    splitPair box ({ box with Right := cut }, { box with Left := cut + 1 }) := by
  obtain ⟨hlr, hbt⟩ := hn
  refine ⟨⟨fun x y => by simp only [inBox]; omega, fun x y => by simp only [inBox]; omega⟩,
    by simp only [normalBox]; omega, by simp only [normalBox]; omega,
    by simp only [subOf]; omega, by simp only [subOf]; omega⟩

theorem horizPair_splitPair {box : Box} {cut margin : ℤ} (hn : normalBox box) (hm : 2 ≤ margin)
    (h1 : box.Bottom + margin ≤ cut) (h2 : cut ≤ box.Top + 1 - margin) :
    splitPair box ({ box with Top := cut }, { box with Bottom := cut + 1 }) := by
  obtain ⟨hlr, hbt⟩ := hn
  refine ⟨⟨fun x y => by simp only [inBox]; omega, fun x y => by simp only [inBox]; omega⟩,
    by simp only [normalBox]; omega, by simp only [normalBox]; omega,
    by simp only [subOf]; omega, by simp only [subOf]; omega⟩

theorem vertCuts_mem_splitPair {box : Box} {margin : ℤ} (hn : normalBox box) (hm : 2 ≤ margin) :
    ∀ (n : ℕ) (rng r' : Rng) (l : List (Box × Box)),
      vertCuts box box.Left box.Right margin n rng = some (l, r') →
      ∀ pr ∈ l, splitPair box pr := by
  intro n
  induction n with
  | zero =>
    intro rng r' l h pr hpr
    simp only [vertCuts, Option.some.injEq, Prod.mk.injEq] at h
    rw [← h.1] at hpr
    exact absurd hpr (List.not_mem_nil pr)
  | succ n ih =>
    intro rng r' l h pr hpr
    rw [show (n + 1) = n.succ from rfl] at h
    simp only [vertCuts] at h
    cases hrand : randint rng (box.Left + margin) (box.Right + 1 - margin) with
    | none => rw [hrand] at h; exact absurd h (by simp)
    | some v =>
      obtain ⟨cut, r1⟩ := v
      rw [hrand] at h
      simp only [Option.bind_eq_bind, Option.some_bind] at h
      cases hrest : vertCuts box box.Left box.Right margin n r1 with
      | none => rw [hrest] at h; exact absurd h (by simp)
      | some w =>
        obtain ⟨rest, r2⟩ := w
        rw [hrest] at h
        simp only [Option.bind_eq_bind, Option.some_bind, Option.some.injEq, Prod.mk.injEq] at h
        obtain ⟨hl, -⟩ := h
        rw [← hl] at hpr
        rcases List.mem_cons.mp hpr with hhead | htail
        · subst hhead
          obtain ⟨hc1, hc2⟩ := randint_bounds hrand
          exact vertPair_splitPair hn hm hc1 (by omega)
        · exact ih r1 r2 rest hrest pr htail

theorem horizCuts_mem_splitPair {box : Box} {margin : ℤ} (hn : normalBox box) (hm : 2 ≤ margin) :
    ∀ (n : ℕ) (rng r' : Rng) (l : List (Box × Box)),
      horizCuts box box.Bottom box.Top margin n rng = some (l, r') →
      ∀ pr ∈ l, splitPair box pr := by
  intro n
  induction n with
  | zero =>
    intro rng r' l h pr hpr
    simp only [horizCuts, Option.some.injEq, Prod.mk.injEq] at h
    rw [← h.1] at hpr
    exact absurd hpr (List.not_mem_nil pr)
  | succ n ih =>
    intro rng r' l h pr hpr
    rw [show (n + 1) = n.succ from rfl] at h
    simp only [horizCuts] at h
    cases hrand : randint rng (box.Bottom + margin) (box.Top + 1 - margin) with
    | none => rw [hrand] at h; exact absurd h (by simp)
    | some v =>
      obtain ⟨cut, r1⟩ := v
      rw [hrand] at h
      simp only [Option.bind_eq_bind, Option.some_bind] at h
      cases hrest : horizCuts box box.Bottom box.Top margin n r1 with
      | none => rw [hrest] at h; exact absurd h (by simp)
      | some w =>
        obtain ⟨rest, r2⟩ := w
        rw [hrest] at h
        simp only [Option.bind_eq_bind, Option.some_bind, Option.some.injEq, Prod.mk.injEq] at h
        obtain ⟨hl, -⟩ := h
        rw [← hl] at hpr
        rcases List.mem_cons.mp hpr with hhead | htail
        · subst hhead
          obtain ⟨hc1, hc2⟩ := randint_bounds hrand
          exact horizPair_splitPair hn hm hc1 (by omega)
        · exact ih r1 r2 rest hrest pr htail

theorem scoreAll_fst (img : Img) :
    ∀ (l : List (Box × Box)) (rng r' : Rng) (scored : List ((Box × Box) × ℚ)),
      scoreAll img l rng = some (scored, r') → scored.map Prod.fst = l := by
  intro l
  induction l with
  | nil =>
    intro rng r' scored h
    simp only [scoreAll, Option.some.injEq, Prod.mk.injEq] at h
    rw [← h.1]
    rfl
  | cons p rest ih =>
    intro rng r' scored h
    simp only [scoreAll] at h
    cases h1 : average img rng p.1 with
    | none => rw [h1] at h; exact absurd h (by simp)
    | some v1 =>
      obtain ⟨c1, r1⟩ := v1
      rw [h1] at h
      simp only [Option.bind_eq_bind, Option.some_bind] at h
      cases h2 : average img r1 p.2 with
      | none => rw [h2] at h; exact absurd h (by simp)
      | some v2 =>
        obtain ⟨c2, r2⟩ := v2
        rw [h2] at h
        simp only [Option.bind_eq_bind, Option.some_bind] at h
        cases h3 : scoreAll img rest r2 with
        | none => rw [h3] at h; exact absurd h (by simp)
        | some v3 =>
          obtain ⟨others, r3⟩ := v3
          rw [h3] at h
          simp only [Option.bind_eq_bind, Option.some_bind, Option.some.injEq,
            Prod.mk.injEq] at h
          rw [← h.1]
          simp only [List.map_cons]
          rw [ih r2 r3 others h3]

theorem maxByFirst_mem (xs : List ((Box × Box) × ℚ)) :
    ∀ acc : (Box × Box) × ℚ, maxByFirst acc xs = acc ∨ maxByFirst acc xs ∈ xs := by
  induction xs with
  | nil => exact fun acc => Or.inl rfl
  | cons x xs ih =>
    intro acc
    show maxByFirst (if acc.2 < x.2 then x else acc) xs = acc ∨
      maxByFirst (if acc.2 < x.2 then x else acc) xs ∈ x :: xs
    rcases ih (if acc.2 < x.2 then x else acc) with h | h
    · rw [h]
      by_cases hc : acc.2 < x.2
      · rw [if_pos hc]
        exact Or.inr (List.mem_cons_self x xs)
      · rw [if_neg hc]
        exact Or.inl rfl
    · exact Or.inr (List.mem_cons_of_mem x h)

theorem chooseBest_some_mem {img : Img} {attempts : List (Box × Box)} {rng r' : Rng}
    {pr : Box × Box} (h : chooseBest img attempts rng = some (some pr, r')) :
    pr ∈ attempts := by
  cases attempts with
  | nil => exact absurd h (by simp [chooseBest])
  | cons a rest =>
    simp only [chooseBest] at h
    cases hsc : scoreAll img (a :: rest) rng with
    | none => rw [hsc] at h; exact absurd h (by simp)
    | some w =>
      obtain ⟨scored, r3⟩ := w
      rw [hsc] at h
      simp only [Option.bind_eq_bind, Option.some_bind] at h
      cases scored with
      | nil => exact absurd h (by simp)
      | cons s ss =>
        simp only [Option.some.injEq, Prod.mk.injEq] at h
        obtain ⟨hpair, -⟩ := h
        have hmem : (maxByFirst s ss) ∈ s :: ss := by
          rcases maxByFirst_mem ss s with he | he
          · rw [he]; exact List.mem_cons_self s ss
          · exact List.mem_cons_of_mem s he
        have hfst : (maxByFirst s ss).1 ∈ (s :: ss).map Prod.fst :=
          List.mem_map_of_mem Prod.fst hmem
        rw [scoreAll_fst img (a :: rest) rng r3 (s :: ss) hsc] at hfst
        rw [← hpair]
        exact hfst

theorem split_some_splitPair {img : Img} {rng r' : Rng} {cuts margin : ℤ} {box b1 b2 : Box}
    (hn : normalBox box) (hm : 2 ≤ margin)
    (h : split img rng cuts margin box = some (some (b1, b2), r')) :
    splitPair box (b1, b2) := by
  obtain ⟨hlr, hbt⟩ := hn
  unfold split at h
  rw [min_eq_left hlr, max_eq_right hlr, min_eq_right hbt, max_eq_left hbt] at h
  dsimp only at h
  have step : ∀ (vatt : List (Box × Box)) (r1 : Rng),
      (∀ pr ∈ vatt, splitPair box pr) →
      ((do
        let x ←
          if box.Bottom + margin < box.Top - margin then
            horizCuts box box.Bottom box.Top margin cuts.toNat r1
          else some ([], r1)
        chooseBest img (vatt ++ x.1) x.2) = some (some (b1, b2), r')) →
      splitPair box (b1, b2) := by
    intro vatt r1 hvall hrun
    by_cases hc : box.Bottom + margin < box.Top - margin
    · rw [if_pos hc] at hrun
      cases hha : horizCuts box box.Bottom box.Top margin cuts.toNat r1 with
      | none => rw [hha] at hrun; exact absurd hrun (by simp)
      | some v =>
        obtain ⟨hatt, r2⟩ := v
        rw [hha] at hrun
        simp only [Option.bind_eq_bind, Option.some_bind] at hrun
        have hhall := horizCuts_mem_splitPair ⟨hlr, hbt⟩ hm cuts.toNat r1 r2 hatt hha
        rcases List.mem_append.mp (chooseBest_some_mem hrun) with hin | hin
        · exact hvall _ hin
        · exact hhall _ hin
    · rw [if_neg hc] at hrun
      simp only [Option.bind_eq_bind, Option.some_bind] at hrun
      rcases List.mem_append.mp (chooseBest_some_mem hrun) with hin | hin
      · exact hvall _ hin
      · exact absurd hin (List.not_mem_nil _)
  by_cases hc : box.Left + margin < box.Right - margin
  · rw [if_pos hc] at h
    cases hva : vertCuts box box.Left box.Right margin cuts.toNat rng with
    | none => rw [hva] at h; exact absurd h (by simp)
    | some v =>
      obtain ⟨vatt, r1⟩ := v
      rw [hva] at h
      simp only [Option.bind_eq_bind, Option.some_bind] at h
      exact step vatt r1 (vertCuts_mem_splitPair ⟨hlr, hbt⟩ hm cuts.toNat rng r1 vatt hva) h
  · rw [if_neg hc] at h
    simp only [Option.bind_eq_bind, Option.some_bind] at h
    exact step [] rng (by simp) h

theorem coverCount_cons (b : Box) (l : List Box) (x y : ℤ) :
    coverCount (b :: l) x y = coverCount l x y + (if inBox b x y then 1 else 0) := by
  unfold coverCount
  rw [List.countP_cons]
  simp only [decide_eq_true_eq]

theorem exactSplit_count {b b1 b2 : Box} (hex : exactSplit b b1 b2) (x y : ℤ)
    (rest : List Box) :
    coverCount (b1 :: b2 :: rest) x y = coverCount (b :: rest) x y := by
  obtain ⟨hiff, hdis⟩ := hex
  rw [coverCount_cons, coverCount_cons, coverCount_cons]
  by_cases hb1 : inBox b1 x y
  · have hb : inBox b x y := (hiff x y).mpr (Or.inl hb1)
    have hb2 : ¬inBox b2 x y := fun hb2 => hdis x y ⟨hb1, hb2⟩
    rw [if_pos hb1, if_neg hb2, if_pos hb]
  · by_cases hb2 : inBox b2 x y
    · have hb : inBox b x y := (hiff x y).mpr (Or.inr hb2)
      rw [if_neg hb1, if_pos hb2, if_pos hb]
    · have hb : ¬inBox b x y := fun hb => ((hiff x y).mp hb).elim hb1 hb2
      rw [if_neg hb1, if_neg hb2, if_neg hb]

theorem goodBox_of_subOf {w h : ℤ} {b b' : Box} (hb : goodBox w h b) (hn : normalBox b')
    (hs : subOf b' b) : goodBox w h b' := by
  refine ⟨hn, ?_⟩
  obtain ⟨-, hc⟩ := hb
  unfold boxInCanvas at hc ⊢
  unfold subOf at hs
  omega

theorem spawnGo_preserves {img : Img} {cuts margin bi w h : ℤ} (hm : 2 ≤ margin) :
    ∀ (bs : List Box) (i : ℕ) (rng : Rng) (bs' : List Box) (r' : Rng),
      spawnGo img cuts margin bi bs i rng = some (bs', r') →
      (∀ b ∈ bs, goodBox w h b) →
      (∀ b ∈ bs', goodBox w h b) ∧ ∀ x y : ℤ, coverCount bs' x y = coverCount bs x y := by
  intro bs
  induction bs with
  | nil =>
    intro i rng bs' r' hrun hgood
    simp only [spawnGo, Option.some.injEq, Prod.mk.injEq] at hrun
    rw [← hrun.1]
    exact ⟨by simp, fun x y => rfl⟩
  | cons b bs ih =>
    intro i rng bs' r' hrun hgood
    have hbgood : goodBox w h b := hgood b (List.mem_cons_self b bs)
    have htail : ∀ b' ∈ bs, goodBox w h b' := fun b' hb' => hgood b' (List.mem_cons_of_mem b hb')
    simp only [spawnGo] at hrun
    by_cases hbi : (i : ℤ) = bi
    · rw [if_pos hbi] at hrun
      cases hs : split img rng cuts margin b with
      | none => rw [hs] at hrun; exact absurd hrun (by simp)
      | some v =>
        obtain ⟨res, r1⟩ := v
        rw [hs] at hrun
        simp only [Option.bind_eq_bind, Option.some_bind] at hrun
        cases hgo : spawnGo img cuts margin bi bs (i + 1) r1 with
        | none => rw [hgo] at hrun; exact absurd hrun (by simp)
        | some w2 =>
          obtain ⟨rest, r2⟩ := w2
          rw [hgo] at hrun
          simp only [Option.bind_eq_bind, Option.some_bind] at hrun
          obtain ⟨hrg, hrc⟩ := ih (i + 1) r1 rest r2 hgo htail
          cases res with
          | none =>
            simp only [Option.some.injEq, Prod.mk.injEq] at hrun
            rw [← hrun.1]
            constructor
            · intro b' hb'
              rcases List.mem_cons.mp hb' with hb' | hb'
              · rw [hb']; exact hbgood
              · exact hrg b' hb'
            · intro x y
              rw [coverCount_cons, coverCount_cons, hrc x y]
          | some pr =>
            obtain ⟨b1, b2⟩ := pr
            simp only [Option.some.injEq, Prod.mk.injEq] at hrun
            rw [← hrun.1]
            obtain ⟨hex, hn1, hn2, hsub1, hsub2⟩ := split_some_splitPair hbgood.1 hm hs
            constructor
            · intro b' hb'
              rcases List.mem_cons.mp hb' with hb' | hb'
              · rw [hb']; exact goodBox_of_subOf hbgood hn1 hsub1
              · rcases List.mem_cons.mp hb' with hb'' | hb''
                · rw [hb'']; exact goodBox_of_subOf hbgood hn2 hsub2
                · exact hrg b' hb''
            · intro x y
              rw [exactSplit_count ⟨fun a c => hex.1 a c, fun a c => hex.2 a c⟩ x y rest,
                coverCount_cons, coverCount_cons, hrc x y]
    · rw [if_neg hbi] at hrun
      cases hgo : spawnGo img cuts margin bi bs (i + 1) rng with
      | none => rw [hgo] at hrun; exact absurd hrun (by simp)
      | some w2 =>
        obtain ⟨rest, r2⟩ := w2
        rw [hgo] at hrun
        simp only [Option.bind_eq_bind, Option.some_bind, Option.some.injEq,
          Prod.mk.injEq] at hrun
        obtain ⟨hrg, hrc⟩ := ih (i + 1) rng rest r2 hgo htail
        rw [← hrun.1]
        constructor
        · intro b' hb'
          rcases List.mem_cons.mp hb' with hb' | hb'
          · rw [hb']; exact hbgood
          · exact hrg b' hb'
        · intro x y
          rw [coverCount_cons, coverCount_cons, hrc x y]

theorem spawn_preserves {img : Img} {rng r' : Rng} {cuts margin w h : ℤ}
    {boxes boxes' : List Box} (hm : 2 ≤ margin)
    (hrun : spawn img rng cuts margin boxes = some (boxes', r'))
    (hgood : ∀ b ∈ boxes, goodBox w h b) :
    (∀ b ∈ boxes', goodBox w h b) ∧
      ∀ x y : ℤ, coverCount boxes' x y = coverCount boxes x y := by
  unfold spawn at hrun
  cases hr : randint rng 0 (boxes.length - 1) with
  | none => rw [hr] at hrun; exact absurd hrun (by simp)
  | some v =>
    obtain ⟨bi, r1⟩ := v
    rw [hr] at hrun
    simp only [Option.bind_eq_bind, Option.some_bind] at hrun
    exact spawnGo_preserves hm boxes 0 r1 boxes' r' hrun hgood

theorem fragment_preserves {img : Img} {cuts margin w h : ℤ} (hm : 2 ≤ margin) :
    ∀ (n : ℕ) (boxes : List Box) (rng : Rng) (boxes' : List Box) (r' : Rng),
      fragment img cuts margin n boxes rng = some (boxes', r') →
      (∀ b ∈ boxes, goodBox w h b) →
      (∀ b ∈ boxes', goodBox w h b) ∧
        ∀ x y : ℤ, coverCount boxes' x y = coverCount boxes x y := by
  intro n
  induction n with
  | zero =>
    intro boxes rng boxes' r' hrun hgood
    simp only [fragment, Option.some.injEq, Prod.mk.injEq] at hrun
    rw [← hrun.1]
    exact ⟨hgood, fun x y => rfl⟩
  | succ n ih =>
    intro boxes rng boxes' r' hrun hgood
    rw [show (n + 1) = n.succ from rfl] at hrun
    simp only [fragment] at hrun
    cases hsp : spawn img rng cuts margin boxes with
    | none => rw [hsp] at hrun; exact absurd hrun (by simp)
    | some v =>
      obtain ⟨more, r1⟩ := v
      rw [hsp] at hrun
      simp only [Option.bind_eq_bind, Option.some_bind] at hrun
      obtain ⟨hg1, hc1⟩ := spawn_preserves hm hsp hgood
      obtain ⟨hg2, hc2⟩ := ih more r1 boxes' r' hrun hg1
      exact ⟨hg2, fun x y => (hc2 x y).trans (hc1 x y)⟩

/-! ## Claim C1: partition invariant -/

/-- C1 counterexample: with `margin = 0`, `cuts = 1` and a suitable RNG stream
the very first generation step of `boxize` on a 3×1 buffer chooses the cut
`c = maxx + 1 = 3` (drawn from `[minx + margin, maxx + 1 - margin] = [0, 3]`)
and produces the box list `[(Right = 3), (Left = 4, Right = 2)]`, which is not
a valid partition of the canvas: the first box extends beyond `width - 1` and
the second is empty/inverted. -/
theorem boxize_not_partition_margin_zero :
    (boxize img3x1 rngCut1 1 0 1).map Prod.fst = some [⟨0, 0, 0, 3⟩, ⟨0, 0, 4, 2⟩] ∧
    ¬ validPartition img3x1.width img3x1.height [⟨0, 0, 0, 3⟩, ⟨0, 0, 4, 2⟩] := by
  constructor
  · with_unfolding_all rfl
  · rintro ⟨hgood, -⟩
    have h1 := hgood ⟨0, 0, 0, 3⟩ (List.mem_cons_self _ _)
    have h2 : ¬ boxInCanvas img3x1.width img3x1.height ⟨0, 0, 0, 3⟩ := by
      unfold boxInCanvas img3x1
      decide
    exact h2 h1.2

/-- C1 (amended): for every pixel buffer of positive dimensions, every
`margin ≥ 2`, every cuts count and every RNG stream, whenever the partition
builder `boxize` runs to completion its box list is a valid partition of the
canvas: every box is normalized and within `[0, width-1] × [0, height-1]`,
and every canvas pixel is covered by exactly one box (full coverage, disjoint
interiors).  (For `margin ≤ 1` the claim fails: the cut interval
`[min + margin, max + 1 - margin]` can produce out-of-canvas and inverted
boxes, see the counterexample.) -/
theorem boxize_valid_partition (img : Img) (rng r' : Rng) (cuts margin depth : ℤ)
    (boxes : List Box) (hm : 2 ≤ margin) (hw : 1 ≤ img.width) (hh : 1 ≤ img.height)
    (hrun : boxize img rng cuts margin depth = some (boxes, r')) :
    validPartition img.width img.height boxes := by
  unfold boxize at hrun
  have hbase : ∀ b ∈ [canvasBox img], goodBox img.width img.height b := by
    intro b hb
    rcases List.mem_cons.mp hb with hb | hb
    · rw [hb]
      unfold goodBox normalBox boxInCanvas canvasBox
      dsimp only
      omega
    · exact absurd hb (List.not_mem_nil b)
  obtain ⟨hgood, hcnt⟩ :=
    fragment_preserves hm depth.toNat [canvasBox img] rng boxes r' hrun hbase
  refine ⟨hgood, fun x y hx1 hx2 hy1 hy2 => ?_⟩
  rw [hcnt x y]
  have hin : inBox (canvasBox img) x y := by
    unfold inBox canvasBox
    dsimp only
    omega
  rw [coverCount_cons]
  unfold coverCount
  rw [List.countP_nil, if_pos hin]

/-- Witness for `boxize_valid_partition`: a 1×1 buffer with `margin = 2` and
one generation (the step is a no-split) yields the single-box partition. -/
theorem boxize_valid_partition_witness :
    validPartition img1x1.width img1x1.height [⟨0, 0, 0, 0⟩] :=
  boxize_valid_partition img1x1 rngZero ⟨rngZero.stream, 1⟩ 1 2 1 [⟨0, 0, 0, 0⟩]
    (by decide) (by decide) (by decide) (by with_unfolding_all rfl)

/-! ## Claim C2: split exactness -/

/-- C2 counterexample: with `margin = 0` and a suitable RNG stream, `split` on
the normalized 3×1 region `(Left = 0, Right = 2)` draws the cut `c = 3` from
`[min + margin, max + 1 - margin] = [0, 3]` and returns the pair
`((Right = 3), (Left = 4, Right = 2))`, which does not exactly partition the
input region (the first part overflows it and the second is empty). -/
theorem split_pair_not_exact_margin_zero :
    (split img3x1 rngCut0 1 0 ⟨0, 0, 0, 2⟩).map Prod.fst =
      some (some (⟨0, 0, 0, 3⟩, ⟨0, 0, 4, 2⟩)) ∧
    ¬ exactSplit ⟨0, 0, 0, 2⟩ ⟨0, 0, 0, 3⟩ ⟨0, 0, 4, 2⟩ := by
  constructor
  · with_unfolding_all rfl
  · rintro ⟨hiff, -⟩
    have h1 : inBox ⟨0, 0, 0, 2⟩ 3 0 := (hiff 3 0).mpr (Or.inl (by unfold inBox; decide))
    exact absurd h1 (by unfold inBox; decide)

/-- C2 (amended): for every region with normalized bounds and every
`margin ≥ 2`, whenever `split` returns a candidate pair the two returned
regions exactly partition the input region (union equal to the input,
disjoint, abutting at the cut) and each has positive area; cut positions are
drawn from the integer interval `[min + margin, max + 1 - margin]` on an axis
satisfying `min + margin < max - margin`.  (For `margin ≤ 1` the topmost cut
values yield an overflowing first part and an empty second part, see the
counterexample.) -/
theorem split_some_exact_partition (img : Img) (rng r' : Rng) (cuts margin : ℤ)
    (box b1 b2 : Box) (hn : normalBox box) (hm : 2 ≤ margin)
    (hs : split img rng cuts margin box = some (some (b1, b2), r')) :
    exactSplit box b1 b2 ∧
    0 < (b1.Right - b1.Left + 1) * (b1.Top - b1.Bottom + 1) ∧
    0 < (b2.Right - b2.Left + 1) * (b2.Top - b2.Bottom + 1) := by
  obtain ⟨hex, hn1, hn2, -, -⟩ := split_some_splitPair hn hm hs
  have hn1' : normalBox b1 := hn1
  have hn2' : normalBox b2 := hn2
  refine ⟨hex, ?_, ?_⟩
  · obtain ⟨ha, hb⟩ := hn1'
    exact mul_pos (by omega) (by omega)
  · obtain ⟨ha, hb⟩ := hn2'
    exact mul_pos (by omega) (by omega)

/-- Witness for `split_some_exact_partition`: on a 7×1 buffer with
`margin = 2` the returned pair `([0..2], [3..6])` exactly partitions
`[0..6]`. -/
theorem split_some_exact_partition_witness :
    exactSplit ⟨0, 0, 0, 6⟩ ⟨0, 0, 0, 2⟩ ⟨0, 0, 3, 6⟩ ∧
    0 < ((⟨0, 0, 0, 2⟩ : Box).Right - (⟨0, 0, 0, 2⟩ : Box).Left + 1) *
      ((⟨0, 0, 0, 2⟩ : Box).Top - (⟨0, 0, 0, 2⟩ : Box).Bottom + 1) ∧
    0 < ((⟨0, 0, 3, 6⟩ : Box).Right - (⟨0, 0, 3, 6⟩ : Box).Left + 1) *
      ((⟨0, 0, 3, 6⟩ : Box).Top - (⟨0, 0, 3, 6⟩ : Box).Bottom + 1) :=
  split_some_exact_partition img7x1 rngZero ⟨rngZero.stream, 7⟩ 1 2
    ⟨0, 0, 0, 6⟩ ⟨0, 0, 0, 2⟩ ⟨0, 0, 3, 6⟩ (by decide) (by decide)
    (by with_unfolding_all rfl)

/-! ## Claim C8: positional whitening -/

theorem intTrunc_eq_floor {q : ℚ} (h : 0 ≤ q) : intTrunc q = ⌊q⌋ := by
  unfold intTrunc
  rw [if_neg (not_lt.mpr h)]
  exact ratFloor_eq_intFloor q

theorem buildColors_spec {img : Img} {grain : ℚ} {k : ℤ} :
    ∀ (boxes : List Box) (i : ℕ) (rng r' : Rng) (res : List (Box × Pix)),
      buildColors img grain k boxes i rng = some (res, r') →
      res.map Prod.fst = boxes ∧
      ∀ (j : ℕ) (hj : j < res.length),
        (((i + j : ℕ) : ℤ) < k → (res.get ⟨j, hj⟩).2 = (255, 255, 255)) ∧
        (k ≤ ((i + j : ℕ) : ℤ) →
          ∃ (r1 r2 : Rng) (c : ℚ × ℚ × ℚ),
            average img r1 (res.get ⟨j, hj⟩).1 = some (c, r2) ∧
            contrastize grain c = some (res.get ⟨j, hj⟩).2) := by
  intro boxes
  induction boxes with
  | nil =>
    intro i rng r' res h
    simp only [buildColors, Option.some.injEq, Prod.mk.injEq] at h
    rw [← h.1]
    exact ⟨rfl, fun j hj => absurd hj (by simp)⟩
  | cons b bs ih =>
    intro i rng r' res h
    simp only [buildColors] at h
    cases ha : average img rng b with
    | none => rw [ha] at h; exact absurd h (by simp)
    | some v =>
      obtain ⟨avg, r1⟩ := v
      rw [ha] at h
      simp only [Option.bind_eq_bind, Option.some_bind] at h
      by_cases hik : (i : ℤ) < k
      · rw [if_pos hik] at h
        cases hrest : buildColors img grain k bs (i + 1) r1 with
        | none => rw [hrest] at h; exact absurd h (by simp)
        | some w =>
          obtain ⟨rest, r2⟩ := w
          rw [hrest] at h
          simp only [Option.bind_eq_bind, Option.some_bind, Option.some.injEq,
            Prod.mk.injEq] at h
          obtain ⟨hres, -⟩ := h
          obtain ⟨ihm, ihs⟩ := ih (i + 1) r1 r2 rest hrest
          rw [← hres]
          constructor
          · rw [List.map_cons, ihm]
          · intro j hj
            cases j with
            | zero =>
              refine ⟨fun _ => rfl, fun hk => absurd hk (by push_cast; omega)⟩
            | succ j =>
              have hj' : j < rest.length := by
                simpa using Nat.lt_of_succ_lt_succ hj
              obtain ⟨ihw, ihq⟩ := ihs j hj'
              constructor
              · intro hlt
                have : ((i + 1 + j : ℕ) : ℤ) < k := by push_cast at hlt ⊢; omega
                simpa using ihw this
              · intro hk
                have : k ≤ ((i + 1 + j : ℕ) : ℤ) := by push_cast at hk ⊢; omega
                simpa using ihq this
      · rw [if_neg hik] at h
        cases hc : contrastize grain avg with
        | none => rw [hc] at h; exact absurd h (by simp)
        | some cpix =>
          rw [hc] at h
          simp only [Option.bind_eq_bind, Option.some_bind] at h
          cases hrest : buildColors img grain k bs (i + 1) r1 with
          | none => rw [hrest] at h; exact absurd h (by simp)
          | some w =>
            obtain ⟨rest, r2⟩ := w
            rw [hrest] at h
            simp only [Option.bind_eq_bind, Option.some_bind, Option.some.injEq,
              Prod.mk.injEq] at h
            obtain ⟨hres, -⟩ := h
            obtain ⟨ihm, ihs⟩ := ih (i + 1) r1 r2 rest hrest
            rw [← hres]
            constructor
            · rw [List.map_cons, ihm]
            · intro j hj
              cases j with
              | zero =>
                refine ⟨fun hlt => absurd hlt (by push_cast; omega), fun _ => ?_⟩
                exact ⟨rng, r1, avg, ha, hc⟩
              | succ j =>
                have hj' : j < rest.length := by
                  simpa using Nat.lt_of_succ_lt_succ hj
                obtain ⟨ihw, ihq⟩ := ihs j hj'
                constructor
                · intro hlt
                  have : ((i + 1 + j : ℕ) : ℤ) < k := by push_cast at hlt ⊢; omega
                  simpa using ihw this
                · intro hk
                  have : k ≤ ((i + 1 + j : ℕ) : ℤ) := by push_cast at hk ⊢; omega
                  simpa using ihq this

/-- C8: the recolorer's whitening rule is positional.  `colorize` computes
`whitened = int(white * len(boxes))` — which equals
`floor(backgroundFraction * regionCount)` for a non-negative fraction — and
its color-assignment pass maps the boxes in partition order, forcing exactly
the positions `j < whitened` to pure white `(255, 255, 255)` regardless of the
buffer's pixel colors, while every later position receives the quantized
(`contrastize`) estimated mean color of its own box. -/
theorem colorize_positional_white_rule (img : Img) (white grain : ℚ) (rng r' : Rng)
    (boxes : List Box) (res : List (Box × Pix)) (hw : 0 ≤ white)
    (hrun : buildColors img grain (intTrunc (white * (boxes.length : ℚ))) boxes 0 rng =
      some (res, r')) :
    intTrunc (white * (boxes.length : ℚ)) = ⌊white * (boxes.length : ℚ)⌋ ∧
    res.map Prod.fst = boxes ∧
    ∀ (j : ℕ) (hj : j < res.length),
      ((j : ℤ) < ⌊white * (boxes.length : ℚ)⌋ →
        (res.get ⟨j, hj⟩).2 = (255, 255, 255)) ∧
      (⌊white * (boxes.length : ℚ)⌋ ≤ (j : ℤ) →
        ∃ (r1 r2 : Rng) (c : ℚ × ℚ × ℚ),
          average img r1 (res.get ⟨j, hj⟩).1 = some (c, r2) ∧
          contrastize grain c = some (res.get ⟨j, hj⟩).2) := by
  have hq : (0 : ℚ) ≤ white * (boxes.length : ℚ) :=
    mul_nonneg hw (Nat.cast_nonneg boxes.length)
  have hk : intTrunc (white * (boxes.length : ℚ)) = ⌊white * (boxes.length : ℚ)⌋ :=
    intTrunc_eq_floor hq
  obtain ⟨hmap, hspec⟩ := buildColors_spec boxes 0 rng r' res hrun
  refine ⟨hk, hmap, fun j hj => ?_⟩
  obtain ⟨hwj, hqj⟩ := hspec j hj
  constructor
  · intro hlt
    exact hwj (by rw [← hk] at hlt; push_cast; omega)
  · intro hge
    exact hqj (by rw [← hk] at hge; push_cast; omega)

/-- Witness for `colorize_positional_white_rule`: two copies of the 1×1 box
with `backgroundFraction = 1/2` give `whitened = 1`; the first box is forced
white and the second gets its quantized average `(0, 0, 0)`. -/
theorem colorize_positional_white_rule_witness :
    intTrunc ((1 / 2 : ℚ) * ((([⟨0, 0, 0, 0⟩, ⟨0, 0, 0, 0⟩] : List Box)).length : ℚ)) =
      ⌊(1 / 2 : ℚ) * ((([⟨0, 0, 0, 0⟩, ⟨0, 0, 0, 0⟩] : List Box)).length : ℚ)⌋ ∧
    (([(⟨0, 0, 0, 0⟩, ((255, 255, 255) : Pix)), (⟨0, 0, 0, 0⟩, ((0, 0, 0) : Pix))] :
        List (Box × Pix)).map Prod.fst) = ([⟨0, 0, 0, 0⟩, ⟨0, 0, 0, 0⟩] : List Box) ∧
    ∀ (j : ℕ)
      (hj : j < [(⟨0, 0, 0, 0⟩, ((255, 255, 255) : Pix)),
                 (⟨0, 0, 0, 0⟩, ((0, 0, 0) : Pix))].length),
      ((j : ℤ) < ⌊(1 / 2 : ℚ) * ((([⟨0, 0, 0, 0⟩, ⟨0, 0, 0, 0⟩] : List Box)).length : ℚ)⌋ →
        ([(⟨0, 0, 0, 0⟩, ((255, 255, 255) : Pix)),
          (⟨0, 0, 0, 0⟩, ((0, 0, 0) : Pix))].get ⟨j, hj⟩).2 = (255, 255, 255)) ∧
      (⌊(1 / 2 : ℚ) * ((([⟨0, 0, 0, 0⟩, ⟨0, 0, 0, 0⟩] : List Box)).length : ℚ)⌋ ≤ (j : ℤ) →
        ∃ (r1 r2 : Rng) (c : ℚ × ℚ × ℚ),
          average img1x1 r1
            ([(⟨0, 0, 0, 0⟩, ((255, 255, 255) : Pix)),
              (⟨0, 0, 0, 0⟩, ((0, 0, 0) : Pix))].get ⟨j, hj⟩).1 = some (c, r2) ∧
          contrastize 32 c =
            some (([(⟨0, 0, 0, 0⟩, ((255, 255, 255) : Pix)),
                    (⟨0, 0, 0, 0⟩, ((0, 0, 0) : Pix))].get ⟨j, hj⟩).2)) :=
  colorize_positional_white_rule img1x1 (1 / 2) 32 rngZero (⟨rngZero.stream, 4⟩ : Rng)
    ([⟨0, 0, 0, 0⟩, ⟨0, 0, 0, 0⟩] : List Box)
    ([(⟨0, 0, 0, 0⟩, (255, 255, 255)), (⟨0, 0, 0, 0⟩, (0, 0, 0))] : List (Box × Pix))
    (by norm_num) (by with_unfolding_all rfl)
